import Mathlib

/-!
Verification of the recurrent-cell contract demonstrated by this repository.

The repository's visible material is the notebook `docs/notebooks/quickstart.ipynb`,
which demonstrates the `renn` package: building a GRU cell, initializing its hidden
state and parameters, applying one step, computing the recurrent and input Jacobians,
and unrolling over a batch of sequences.  The library's own source is not part of the
supplied material, so the cell abstraction below is modelled from the specification's
component design (Cell / StepFunction / Linearizer / Unroller) and checked against the
shapes demonstrated by the notebook.

Numbers are modelled as rationals so every operation is executable and decidable.
Vectors are lists of rationals and matrices are lists of row vectors; shape facts
(the spec's `[batch, time, units]` layouts) become length facts about these lists.
-/

set_option autoImplicit false

namespace Renn

/-- Numeric vector: a fixed-length list of rationals (the spec's `State` / `Input`). -/
abbrev Vec := List ℚ

/-- Numeric matrix as a list of row vectors (the spec's 2-D arrays / `Jacobian`). -/
abbrev Mat := List Vec

/-- Modelled from the spec: the error taxonomy of §7 — `InvalidConfiguration` for bad
cell construction arguments (non-positive unit count) and `ShapeMismatch` for any
argument whose shape disagrees with the cell's fixed unit/input dimensions. -/
inductive Err where
  | invalidConfiguration : Err
  | shapeMismatch : Err
deriving DecidableEq, Repr

/-- Dot product of two vectors (truncating at the shorter operand). -/
def dot (a b : Vec) : ℚ := (List.zipWith (· * ·) a b).sum

/-- Matrix–vector product: one dot product per row. -/
def matVec (m : Mat) (v : Vec) : Vec := m.map (fun r => dot r v)

/-- Elementwise vector addition. -/
def addVec (a b : Vec) : Vec := List.zipWith (· + ·) a b

/-- Elementwise vector subtraction. -/
def subVec (a b : Vec) : Vec := List.zipWith (· - ·) a b

/-- Modelled from the spec: the cell's scalar nonlinearity.  The GRU's concrete
update formula is not part of the supplied material; per §9 an implementer may
supply a concrete step formula with a manually-derived closed-form Jacobian, so we
model the nonlinearity as the smooth polynomial `z + z^2`, which keeps every
operation exact over the rationals. -/
def sigma (z : ℚ) : ℚ := z + z ^ 2

/-- Closed-form derivative of the modelled nonlinearity `sigma`. -/
def sigmaDeriv (z : ℚ) : ℚ := 1 + 2 * z

/-- Modelled from the spec: `Parameters` — a structured collection of numeric
arrays keyed by role (recurrent weights, input weights, bias), owned by the cell's
initializer (§3). -/
structure Params where
  wh : Mat
  wx : Mat
  b : Vec
deriving DecidableEq, Repr

/-- The input dimension the parameters were built for: the width of the rows of
the input-weight matrix. -/
def Params.inDim (p : Params) : Nat := (p.wx.headD []).length

/-- Well-formedness of parameters for a cell with `n` units and input dimension
`d`: recurrent weights are `n × n`, input weights are `n × d`, bias has length `n`. -/
def Params.dimsOK (p : Params) (n d : Nat) : Prop :=
  p.wh.length = n ∧ (∀ r ∈ p.wh, r.length = n) ∧
  p.wx.length = n ∧ (∀ r ∈ p.wx, r.length = d) ∧
  p.b.length = n

instance (p : Params) (n d : Nat) : Decidable (p.dimsOK n d) := by
  unfold Params.dimsOK; infer_instance

/-- Modelled from the spec: the pre-activation of one step — recurrent weights
times previous state, plus input weights times input, plus bias. -/
def preact (p : Params) (x h : Vec) : Vec :=
  addVec (addVec (matVec p.wh h) (matVec p.wx x)) p.b

/-- Modelled from the spec: `StepFunction` (§4.2) — the pure nonlinear one-step
update mapping (parameters, input, previous state) to the next state. -/
def step (p : Params) (x h : Vec) : Vec := (preact p x h).map sigma

/-- Modelled from the spec: a `Cell` (§4.1), the notebook's `renn.GRU(32)` — a
recurrence family parameterized by its unit count.  The count is an integer so
that the non-positive configurations of §7 are representable. -/
structure GRU where
  units : Int
deriving DecidableEq, Repr

/-- The hidden-state width of the cell as a natural number. -/
def GRU.numUnits (c : GRU) : Nat := c.units.toNat

/-- Shape precondition of a single-step call: parameters match the cell's fixed
unit count and their own input dimension, the input has that input dimension, and
the state has the cell's width. -/
def GRU.applyOK (c : GRU) (p : Params) (x h : Vec) : Prop :=
  p.dimsOK c.numUnits p.inDim ∧ x.length = p.inDim ∧ h.length = c.numUnits

instance (c : GRU) (p : Params) (x h : Vec) : Decidable (c.applyOK p x h) := by
  unfold GRU.applyOK; infer_instance

/-- Modelled from the spec: `apply(params, input, state) -> next_state` (§4.2) —
fails with `ShapeMismatch` prior to computation on mismatched shapes, otherwise
returns the nonlinear one-step update. -/
def GRU.apply (c : GRU) (p : Params) (x h : Vec) : Except Err Vec :=
  if c.applyOK p x h then .ok (step p x h) else .error .shapeMismatch

/-- Product with a transposed matrix: entry `(i, j)` of `mulT A B` is the dot
product of row `i` of `A` with row `j` of `B`, i.e. `A * Bᵀ`. -/
def mulT (A B : Mat) : Mat := A.map (fun ar => B.map (fun br => dot ar br))

/-- Modelled from the spec: the batched step computed in vectorized form (§4.2) —
stacking the batch as rows, the pre-activations are `H * whᵀ + X * wxᵀ` with the
bias broadcast across rows, and the nonlinearity is applied elementwise. -/
def batchStep (p : Params) (X H : Mat) : Mat :=
  List.zipWith (fun zh zx => (addVec (addVec zh zx) p.b).map sigma)
    (mulT H p.wh) (mulT X p.wx)

/-- Shape precondition of a batched step: parameters well-formed, the input and
state stacks have one row per batch element, inputs of the parameter's input
dimension and states of the cell's width. -/
def GRU.batchApplyOK (c : GRU) (p : Params) (X H : Mat) : Prop :=
  p.dimsOK c.numUnits p.inDim ∧ X.length = H.length ∧
  (∀ r ∈ X, r.length = p.inDim) ∧ (∀ r ∈ H, r.length = c.numUnits)

instance (c : GRU) (p : Params) (X H : Mat) : Decidable (c.batchApplyOK p X H) := by
  unfold GRU.batchApplyOK; infer_instance

/-- Modelled from the spec: `batch_apply(params, input, state)` (§4.2) — the
broadcast/vectorized form of `apply` over a leading batch dimension; fails with
`ShapeMismatch` prior to computation on mismatched shapes. -/
def GRU.batchApply (c : GRU) (p : Params) (X H : Mat) : Except Err Mat :=
  if c.batchApplyOK p X H then .ok (batchStep p X H) else .error .shapeMismatch

/-- Modelled from the spec: the closed-form recurrent Jacobian (§4.3, §9) —
row `i` is row `i` of the recurrent weights scaled by the derivative of the
nonlinearity at pre-activation `i`, the analytic derivative of `step` with
respect to the state. -/
def recJacRaw (p : Params) (x h : Vec) : Mat :=
  List.zipWith (fun z r => r.map (fun w => sigmaDeriv z * w)) (preact p x h) p.wh

/-- Modelled from the spec: the closed-form input Jacobian (§4.3, §9) — the
analytic derivative of `step` with respect to the input. -/
def inpJacRaw (p : Params) (x h : Vec) : Mat :=
  List.zipWith (fun z r => r.map (fun w => sigmaDeriv z * w)) (preact p x h) p.wx

/-- Modelled from the spec: `rec_jac(params, input, state)` (§4.3) — the exact
derivative of `apply` with respect to `state` at the supplied point; wrong shapes
fail with `ShapeMismatch`. -/
def GRU.rec_jac (c : GRU) (p : Params) (x h : Vec) : Except Err Mat :=
  if c.applyOK p x h then .ok (recJacRaw p x h) else .error .shapeMismatch

/-- Modelled from the spec: `inp_jac(params, input, state)` (§4.3) — the exact
derivative of `apply` with respect to `input` at the supplied point; wrong shapes
fail with `ShapeMismatch`. -/
def GRU.inp_jac (c : GRU) (p : Params) (x h : Vec) : Except Err Mat :=
  if c.applyOK p x h then .ok (inpJacRaw p x h) else .error .shapeMismatch

/-- Modelled from the spec: the deterministic splittable pseudo-random generator
of §6 — an explicit key, with a splitting operation deriving two independent
streams from one.  Keys are natural numbers. -/
def splitKey (k : Nat) : Nat × Nat := (2 * k + 1, 2 * k + 2)

/-- Modelled from the spec: one pseudo-random rational draw from an explicit key
(a linear-congruential hash scaled into `[0, 1)`). -/
def randQ (k : Nat) : ℚ :=
  ((k * 1103515245 + 12345) % 4294967296 : Nat) / (4294967296 : ℚ)

/-- Modelled from the spec: a pseudo-random vector of length `m` drawn from an
explicit key. -/
def randVec (k m : Nat) : Vec := (List.range m).map (fun i => randQ (k + i))

/-- Modelled from the spec: a pseudo-random `rows × cols` matrix drawn from an
explicit key, one split-derived subkey per row. -/
def randMat (k rows cols : Nat) : Mat :=
  (List.range rows).map (fun i => randVec (k * rows + i * cols) cols)

/-- Modelled from the spec: `init_initial_state(randomness) -> State` (§4.1) —
produces a state vector of the cell's fixed width, deterministic given identical
randomness input; fails with `InvalidConfiguration` if the unit count is ≤ 0. -/
def GRU.init_initial_state (c : GRU) (key : Nat) : Except Err Vec :=
  if c.units ≤ 0 then .error .invalidConfiguration
  else .ok (randVec key c.numUnits)

/-- Modelled from the spec: `init(randomness, input_shape) -> (OutputShape,
Parameters)` (§4.1) — given an input shape descriptor (time dimension, feature
dimension), allocates and initializes the parameters, and returns the shape of
the step output (time dimension, unit count) for shape-checking call sites. -/
def GRU.init (c : GRU) (key : Nat) (inputShape : Nat × Nat) :
    Except Err ((Nat × Nat) × Params) :=
  if c.units ≤ 0 then .error .invalidConfiguration
  else
    let n := c.numUnits
    let ks := splitKey key
    .ok ((inputShape.1, n),
      ⟨randMat ks.1 n n, randMat ks.2 n inputShape.2, randVec key n⟩)

/-- Modelled from the spec: `get_initial_state(params, batch_size)` (§4.1) —
replicates a state per batch element, shape `[batch_size, units]`. -/
def GRU.get_initial_state (c : GRU) (_p : Params) (batchSize : Nat) : Mat :=
  List.replicate batchSize (List.replicate c.numUnits 0)

/-- Sequentially fold a step function over a time-major list of batched inputs,
collecting the state after every step (the spec's Unroller core, §4.4). -/
def scanSteps (f : Mat → Mat → Mat) : Mat → List Mat → List Mat
  | _, [] => []
  | s, X :: rest =>
    let s' := f X s
    s' :: scanSteps f s' rest

/-- Time length of a batch-major input stack `[batch, time, input_dim]`: the
length of the first sequence. -/
def seqLen (inputs : List (List Vec)) : Nat := (inputs.headD []).length

/-- Re-slice a batch-major input stack `[batch, time, input_dim]` into its
time-major form: one `[batch, input_dim]` matrix per timestep. -/
def timeSlices (inputs : List (List Vec)) : List Mat :=
  (List.range (seqLen inputs)).map (fun t => inputs.map (fun s => s.getD t []))

/-- Unchecked unroll: fold the step function over the time axis starting from
the batched initial states, then lay the trajectory out batch-major as
`[batch, time, units]`. -/
def unrollRaw (init : Mat) (inputs : List (List Vec)) (f : Mat → Mat → Mat) :
    List (List Vec) :=
  let tm := scanSteps f init (timeSlices inputs)
  (List.range init.length).map (fun b => tm.map (fun S => S.getD b []))

/-- Shape precondition of `unroll_rnn`: one initial state per batch element and
all sequences of equal time length. -/
def unrollOK (init : Mat) (inputs : List (List Vec)) : Prop :=
  init.length = inputs.length ∧ ∀ s ∈ inputs, s.length = seqLen inputs

instance (init : Mat) (inputs : List (List Vec)) : Decidable (unrollOK init inputs) := by
  unfold unrollOK; infer_instance

/-- Modelled from the spec: `unroll_rnn(initial_states, inputs, step_fn)` (§4.4)
— given batched states `[batch, units]` and inputs `[batch, time, input_dim]`,
sequentially folds the bound step function over the time axis starting from the
initial states, producing states `[batch, time, units]`; shape mismatches between
the initial states and inputs fail with `ShapeMismatch`, and time length 0 yields
an empty result rather than an error. -/
def unroll_rnn (init : Mat) (inputs : List (List Vec)) (f : Mat → Mat → Mat) :
    Except Err (List (List Vec)) :=
  if unrollOK init inputs then .ok (unrollRaw init inputs f) else .error .shapeMismatch

/-- Max-absolute-value norm of a vector (`‖·‖∞`); `0` for the empty vector. -/
def linf (v : Vec) : ℚ := (v.map (fun q => |q|)).foldr max 0

/-- Sum of absolute values of a vector (`‖·‖₁`). -/
def sumAbs (v : Vec) : ℚ := (v.map (fun q => |q|)).sum

/-- Largest row ℓ₁-norm of a matrix (the induced `‖·‖∞` operator norm). -/
def maxRowSum (m : Mat) : ℚ := (m.map sumAbs).foldr max 0

/-- The first-order Taylor prediction of the step at expansion point `(x, h)`
perturbed by `(dx, dh)`: `step(x, h) + rec_jac·dh + inp_jac·dx`. -/
def linApprox (p : Params) (x h dx dh : Vec) : Vec :=
  addVec (step p x h) (addVec (matVec (recJacRaw p x h) dh) (matVec (inpJacRaw p x h) dx))

/-- The error of the first-order Taylor prediction:
`step(x+dx, h+dh) − (step(x, h) + rec_jac·dh + inp_jac·dx)`. -/
def taylorErr (p : Params) (x h dx dh : Vec) : Vec :=
  subVec (step p (addVec x dx) (addVec h dh)) (linApprox p x h dx dh)

theorem length_randVec (k m : Nat) : (randVec k m).length = m := by
  simp [randVec]

/-- C5: for a positive unit count `init_initial_state` returns a state of exactly
that length; for a non-positive unit count it fails with `InvalidConfiguration`. -/
theorem init_initial_state_spec (c : GRU) (key : Nat) :
    (0 < c.units →
      ∃ v, c.init_initial_state key = .ok v ∧ (v.length : Int) = c.units) ∧
    (c.units ≤ 0 →
      c.init_initial_state key = .error .invalidConfiguration) := by
  constructor
  · intro hpos
    refine ⟨randVec key c.numUnits, ?_, ?_⟩
    · simp [GRU.init_initial_state, not_le.mpr hpos]
    · simp [length_randVec, GRU.numUnits, Int.toNat_of_nonneg (le_of_lt hpos)]
  · intro hneg
    simp [GRU.init_initial_state, hneg]

/-- Witness for C5: both branches at concrete cells — a 3-unit cell yields a
length-3 state and a (−1)-unit cell fails with `InvalidConfiguration`. -/
theorem init_initial_state_spec_witness :
    (∃ v, (GRU.mk 3).init_initial_state 0 = .ok v ∧ (v.length : Int) = 3) ∧
    (GRU.mk (-1)).init_initial_state 0 = .error .invalidConfiguration :=
  ⟨(init_initial_state_spec ⟨3⟩ 0).1 (by decide),
   (init_initial_state_spec ⟨-1⟩ 0).2 (by decide)⟩

/-- C6: with identical randomness keys (and input shapes), repeated calls of
`init_initial_state` and `init` return identical outputs — the model threads
randomness explicitly through arguments, with no hidden global state. -/
theorem init_deterministic (c : GRU) (k₁ k₂ : Nat) (s₁ s₂ : Nat × Nat)
    (hk : k₁ = k₂) (hs : s₁ = s₂) :
    c.init_initial_state k₁ = c.init_initial_state k₂ ∧
    c.init k₁ s₁ = c.init k₂ s₂ := by
  subst hk; subst hs; exact ⟨rfl, rfl⟩

/-- Witness for C6: determinism instantiated at the notebook's 32-unit cell with
key 5 and input shape (100, 2). -/
theorem init_deterministic_witness :
    (GRU.mk 32).init_initial_state 5 = (GRU.mk 32).init_initial_state 5 ∧
    (GRU.mk 32).init 5 (100, 2) = (GRU.mk 32).init 5 (100, 2) :=
  init_deterministic ⟨32⟩ 5 5 (100, 2) (100, 2) rfl rfl

/-- C7: for a cell with a positive unit count `n` and any input shape `(T, d)`,
`init` returns as its first component the step-output shape `(T, n)`. -/
theorem init_output_shape (c : GRU) (key T d : Nat) (hpos : 0 < c.units) :
    ∃ ps, c.init key (T, d) = .ok ((T, c.numUnits), ps) := by
  refine ⟨⟨randMat (splitKey key).1 c.numUnits c.numUnits,
    randMat (splitKey key).2 c.numUnits d, randVec key c.numUnits⟩, ?_⟩
  simp [GRU.init, not_le.mpr hpos]

/-- Witness for C7: the notebook's demonstration — a 32-unit cell initialized for
input shape (100, 2) reports output shape (100, 32). -/
theorem init_output_shape_witness :
    ∃ ps, (GRU.mk 32).init 0 (100, 2) = .ok ((100, 32), ps) :=
  init_output_shape ⟨32⟩ 0 100 2 (by decide)

/-- C9: `apply` is pure — its result is a function of its arguments alone
(identical arguments give identical results), and every successful call returns
the new state computed by the step function from the unchanged arguments. -/
theorem apply_pure (c : GRU) (p p' : Params) (x x' h h' : Vec)
    (hp : p = p') (hx : x = x') (hh : h = h') :
    c.apply p x h = c.apply p' x' h' ∧
    ∀ v, c.apply p x h = .ok v → v = step p x h := by
  subst hp; subst hx; subst hh
  refine ⟨rfl, fun v hv => ?_⟩
  by_cases hok : c.applyOK p x h
  · simpa [GRU.apply, hok] using hv.symm
  · simp [GRU.apply, hok] at hv

/-- Witness for C9: purity at a concrete 2-unit cell and concrete arguments. -/
theorem apply_pure_witness :
    (GRU.mk 2).apply ⟨[[1, 0], [0, 1]], [[1], [2]], [0, 0]⟩ [1] [1, 2] =
      (GRU.mk 2).apply ⟨[[1, 0], [0, 1]], [[1], [2]], [0, 0]⟩ [1] [1, 2] ∧
    ∀ v, (GRU.mk 2).apply ⟨[[1, 0], [0, 1]], [[1], [2]], [0, 0]⟩ [1] [1, 2] = .ok v →
      v = step ⟨[[1, 0], [0, 1]], [[1], [2]], [0, 0]⟩ [1] [1, 2] :=
  apply_pure ⟨2⟩ _ _ _ _ _ _ rfl rfl rfl

/-- C8: each of `apply`, `batch_apply`, `rec_jac`, `inp_jac` and `unroll_rnn`
returns `ShapeMismatch` exactly when its shape precondition fails — before any
computation — and otherwise returns the complete result of the computation; every
call fully succeeds or fully fails. -/
theorem shape_mismatch_spec (c : GRU) (p : Params) (x h : Vec) (X H init : Mat)
    (inputs : List (List Vec)) (f : Mat → Mat → Mat) :
    (c.apply p x h = .error .shapeMismatch ↔ ¬ c.applyOK p x h) ∧
    (c.applyOK p x h → c.apply p x h = .ok (step p x h)) ∧
    (c.batchApply p X H = .error .shapeMismatch ↔ ¬ c.batchApplyOK p X H) ∧
    (c.batchApplyOK p X H → c.batchApply p X H = .ok (batchStep p X H)) ∧
    (c.rec_jac p x h = .error .shapeMismatch ↔ ¬ c.applyOK p x h) ∧
    (c.applyOK p x h → c.rec_jac p x h = .ok (recJacRaw p x h)) ∧
    (c.inp_jac p x h = .error .shapeMismatch ↔ ¬ c.applyOK p x h) ∧
    (c.applyOK p x h → c.inp_jac p x h = .ok (inpJacRaw p x h)) ∧
    (unroll_rnn init inputs f = .error .shapeMismatch ↔ ¬ unrollOK init inputs) ∧
    (unrollOK init inputs → unroll_rnn init inputs f = .ok (unrollRaw init inputs f)) := by
  refine ⟨?_, ?_, ?_, ?_, ?_, ?_, ?_, ?_, ?_, ?_⟩ <;>
    first
    | (intro hok; simp [GRU.apply, GRU.batchApply, GRU.rec_jac, GRU.inp_jac,
        unroll_rnn, hok])
    | (constructor
       · intro he hok
         simp [GRU.apply, GRU.batchApply, GRU.rec_jac, GRU.inp_jac,
           unroll_rnn, hok] at he
       · intro hok
         simp [GRU.apply, GRU.batchApply, GRU.rec_jac, GRU.inp_jac,
           unroll_rnn, hok])

/-- Witness for C8: at a concrete 2-unit cell, a state of the wrong length makes
`apply` fail with `ShapeMismatch`, and a matching state makes it fully succeed. -/
theorem shape_mismatch_spec_witness :
    (GRU.mk 2).apply ⟨[[1, 0], [0, 1]], [[1], [2]], [0, 0]⟩ [1] [1, 2, 3] =
      .error .shapeMismatch ∧
    (GRU.mk 2).apply ⟨[[1, 0], [0, 1]], [[1], [2]], [0, 0]⟩ [1] [1, 2] =
      .ok (step ⟨[[1, 0], [0, 1]], [[1], [2]], [0, 0]⟩ [1] [1, 2]) :=
  ⟨(shape_mismatch_spec ⟨2⟩ ⟨[[1, 0], [0, 1]], [[1], [2]], [0, 0]⟩ [1] [1, 2, 3]
      [] [] [] [] (fun _ s => s)).1.mpr (by decide),
   (shape_mismatch_spec ⟨2⟩ ⟨[[1, 0], [0, 1]], [[1], [2]], [0, 0]⟩ [1] [1, 2]
      [] [] [] [] (fun _ s => s)).2.1 (by decide)⟩

theorem dot_comm (a b : Vec) : dot a b = dot b a := by
  unfold dot
  rw [List.zipWith_comm_of_comm _ mul_comm]

theorem mulT_getElem (A B : Mat) (i : Nat) (hi : i < A.length)
    (hi2 : i < (mulT A B).length) :
    (mulT A B).get ⟨i, hi2⟩ = matVec B (A.get ⟨i, hi⟩) := by
  simp only [mulT, matVec, List.get_eq_getElem, List.getElem_map]
  exact List.map_congr_left fun a _ => dot_comm _ _

theorem length_mulT (A B : Mat) : (mulT A B).length = A.length := by
  simp [mulT]

theorem length_batchStep (p : Params) (X H : Mat) :
    (batchStep p X H).length = min H.length X.length := by
  simp [batchStep, length_mulT]

theorem batchStep_getElem (p : Params) (X H : Mat) (i : Nat)
    (hiX : i < X.length) (hiH : i < H.length) (hiO : i < (batchStep p X H).length) :
    (batchStep p X H).get ⟨i, hiO⟩ = step p (X.get ⟨i, hiX⟩) (H.get ⟨i, hiH⟩) := by
  have hO : (batchStep p X H).get ⟨i, hiO⟩ = (batchStep p X H)[i] := rfl
  rw [hO]
  simp only [batchStep, List.getElem_zipWith]
  have hiH2 : i < (mulT H p.wh).length := by simpa [length_mulT] using hiH
  have hiX2 : i < (mulT X p.wx).length := by simpa [length_mulT] using hiX
  have h1 : (mulT H p.wh)[i] = matVec p.wh (H.get ⟨i, hiH⟩) :=
    mulT_getElem H p.wh i hiH hiH2
  have h2 : (mulT X p.wx)[i] = matVec p.wx (X.get ⟨i, hiX⟩) :=
    mulT_getElem X p.wx i hiX hiX2
  rw [h1, h2]
  rfl

/-- C2: `batch_apply` on a batch of size `k` succeeds and its `i`-th output row
is exactly what an independent `apply` call on the `i`-th batch slice returns —
batch elements never interact. -/
theorem batchApply_slicewise (c : GRU) (p : Params) (X H : Mat)
    (hok : c.batchApplyOK p X H) :
    ∃ out, c.batchApply p X H = .ok out ∧ out.length = X.length ∧
      ∀ i (hiX : i < X.length) (hiH : i < H.length) (hiO : i < out.length),
        c.apply p (X.get ⟨i, hiX⟩) (H.get ⟨i, hiH⟩) = .ok (out.get ⟨i, hiO⟩) := by
  obtain ⟨hdims, hXH, hXr, hHr⟩ := hok
  refine ⟨batchStep p X H, ?_, ?_, ?_⟩
  · rw [GRU.batchApply, if_pos ⟨hdims, hXH, hXr, hHr⟩]
  · simp [length_batchStep, hXH]
  · intro i hiX hiH hiO
    have happly : c.applyOK p (X.get ⟨i, hiX⟩) (H.get ⟨i, hiH⟩) :=
      ⟨hdims, hXr _ (X.get_mem i hiX), hHr _ (H.get_mem i hiH)⟩
    rw [GRU.apply, if_pos happly, batchStep_getElem p X H i hiX hiH hiO]

/-- Witness for C2: a concrete batch of two examples through a concrete 2-unit
cell, sliced at index 0, matches the independent single-example `apply`. -/
theorem batchApply_slicewise_witness :
    ∃ out, (GRU.mk 2).batchApply ⟨[[1, 0], [0, 1]], [[1], [2]], [0, 0]⟩
        [[1], [3]] [[1, 2], [0, 0]] = .ok out ∧
      out.length = 2 ∧
      ∀ i (hiX : i < ([[(1 : ℚ)], [3]] : Mat).length)
        (hiH : i < ([[(1 : ℚ), 2], [0, 0]] : Mat).length) (hiO : i < out.length),
        (GRU.mk 2).apply ⟨[[1, 0], [0, 1]], [[1], [2]], [0, 0]⟩
          (([[(1 : ℚ)], [3]] : Mat).get ⟨i, hiX⟩)
          (([[(1 : ℚ), 2], [0, 0]] : Mat).get ⟨i, hiH⟩) = .ok (out.get ⟨i, hiO⟩) :=
  batchApply_slicewise ⟨2⟩ ⟨[[1, 0], [0, 1]], [[1], [2]], [0, 0]⟩
    [[1], [3]] [[1, 2], [0, 0]] (by decide)

theorem length_scanSteps (f : Mat → Mat → Mat) (s : Mat) (l : List Mat) :
    (scanSteps f s l).length = l.length := by
  induction l generalizing s with
  | nil => rfl
  | cons X rest ih => simp [scanSteps, ih]

theorem scanSteps_getElem_zero (f : Mat → Mat → Mat) (s : Mat) (l : List Mat)
    (h : 0 < l.length) (h2 : 0 < (scanSteps f s l).length) :
    (scanSteps f s l)[0] = f l[0] s := by
  cases l with
  | nil => exact absurd h (by simp)
  | cons X rest => rfl

theorem length_timeSlices (inputs : List (List Vec)) :
    (timeSlices inputs).length = seqLen inputs := by
  simp [timeSlices]

theorem length_unrollRaw (init : Mat) (inputs : List (List Vec)) (f : Mat → Mat → Mat) :
    (unrollRaw init inputs f).length = init.length := by
  simp [unrollRaw]

theorem unrollRaw_getElem (init : Mat) (inputs : List (List Vec)) (f : Mat → Mat → Mat)
    (b : Nat) (hb : b < (unrollRaw init inputs f).length) :
    (unrollRaw init inputs f)[b] =
      (scanSteps f init (timeSlices inputs)).map (fun S => S.getD b []) := by
  simp [unrollRaw]

theorem length_step (p : Params) (n d : Nat) (hdims : p.dimsOK n d) (x h : Vec) :
    (step p x h).length = n := by
  obtain ⟨h1, _, h3, _, h5⟩ := hdims
  simp [step, preact, addVec, matVec, h1, h3, h5]

theorem batchStep_mem_length (p : Params) (n d : Nat) (hdims : p.dimsOK n d)
    (X H : Mat) : ∀ r ∈ batchStep p X H, r.length = n := by
  intro r hr
  obtain ⟨i, hi, hr⟩ := List.mem_iff_getElem.mp hr
  have hiX : i < X.length := by
    have := hi; rw [length_batchStep] at this; omega
  have hiH : i < H.length := by
    have := hi; rw [length_batchStep] at this; omega
  have : r = step p (X.get ⟨i, hiX⟩) (H.get ⟨i, hiH⟩) := by
    rw [← hr]; exact batchStep_getElem p X H i hiX hiH hi
  rw [this]
  exact length_step p n d hdims _ _

theorem scanSteps_shape (p : Params) (n d batch : Nat) (hdims : p.dimsOK n d) :
    ∀ (slices : List Mat) (s : Mat), s.length = batch →
      (∀ X ∈ slices, X.length = batch) →
      ∀ S ∈ scanSteps (fun X H => batchStep p X H) s slices,
        S.length = batch ∧ ∀ r ∈ S, r.length = n := by
  intro slices
  induction slices with
  | nil => intro s _ _ S hS; exact absurd hS (by simp [scanSteps])
  | cons X rest ih =>
    intro s hs hsl S hS
    have hX : X.length = batch := hsl X (by simp)
    have hhead : (batchStep p X s).length = batch := by
      rw [length_batchStep, hs, hX, Nat.min_self]
    rcases (by simpa [scanSteps] using hS :
        S = batchStep p X s ∨ S ∈ scanSteps (fun X H => batchStep p X H) (batchStep p X s) rest) with
      h | h
    · exact ⟨h ▸ hhead, h ▸ batchStep_mem_length p n d hdims X s⟩
    · exact ih (batchStep p X s) hhead (fun Y hY => hsl Y (by simp [hY])) S h

/-- C1: with a batched initial state of shape `[batch, units]` and inputs of
time length `T`, unrolling the cell's batched step returns exactly `T` states per
batch element, computed by folding the step over the time axis from the initial
states; the first state of batch element `b` is exactly what
`apply(params, inputs[b][0], initial_state[b])` returns, and `T = 0` yields an
empty sequence per batch element rather than an error. -/
theorem unroll_rnn_states (c : GRU) (p : Params) (init : Mat)
    (inputs : List (List Vec))
    (hdims : p.dimsOK c.numUnits p.inDim)
    (hlen : init.length = inputs.length)
    (huni : ∀ s ∈ inputs, s.length = seqLen inputs)
    (hinit : ∀ r ∈ init, r.length = c.numUnits)
    (hinp : ∀ s ∈ inputs, ∀ v ∈ s, v.length = p.inDim) :
    ∃ out, unroll_rnn init inputs (fun X H => batchStep p X H) = .ok out ∧
      out.length = init.length ∧
      (∀ row ∈ out, row.length = seqLen inputs) ∧
      (∀ b, b < init.length → 0 < seqLen inputs →
        c.apply p ((inputs.getD b []).getD 0 []) (init.getD b []) =
          .ok ((out.getD b []).getD 0 [])) ∧
      (seqLen inputs = 0 → out = List.replicate init.length []) := by
  have hok : unrollOK init inputs := ⟨hlen, huni⟩
  refine ⟨unrollRaw init inputs (fun X H => batchStep p X H),
    by rw [unroll_rnn, if_pos hok], length_unrollRaw init inputs _, ?_, ?_, ?_⟩
  · intro row hrow
    obtain ⟨b, hb, hrow⟩ := List.mem_iff_getElem.mp hrow
    rw [← hrow, unrollRaw_getElem]
    simp [length_scanSteps, length_timeSlices]
  · intro b hb hT
    have hb2 : b < (unrollRaw init inputs (fun X H => batchStep p X H)).length := by
      rw [length_unrollRaw]; exact hb
    have hbin : b < inputs.length := hlen ▸ hb
    -- the first time-slice and its row b
    have hTs : 0 < (timeSlices inputs).length := by rw [length_timeSlices]; exact hT
    have hsc : 0 < (scanSteps (fun X H => batchStep p X H) init (timeSlices inputs)).length := by
      rw [length_scanSteps, length_timeSlices]; exact hT
    have hslice0 : (timeSlices inputs)[0] =
        inputs.map (fun s => s.getD 0 []) := by
      simp [timeSlices, List.getElem_map, List.getElem_range, hT]
    have hrow : (unrollRaw init inputs (fun X H => batchStep p X H)).getD b [] =
        (scanSteps (fun X H => batchStep p X H) init (timeSlices inputs)).map
          (fun S => S.getD b []) := by
      rw [List.getD_eq_getElem _ _ hb2]
      exact unrollRaw_getElem init inputs _ b hb2
    have hscm : 0 < ((scanSteps (fun X H => batchStep p X H) init (timeSlices inputs)).map
        (fun S => S.getD b [])).length := by
      simpa using hsc
    have hfirst : ((scanSteps (fun X H => batchStep p X H) init (timeSlices inputs)).map
        (fun S => S.getD b [])).getD 0 [] =
        (batchStep p (inputs.map (fun s => s.getD 0 [])) init).getD b [] := by
      rw [List.getD_eq_getElem _ _ hscm]
      rw [List.getElem_map]
      have := scanSteps_getElem_zero (fun X H => batchStep p X H) init
        (timeSlices inputs) hTs hsc
      rw [this, hslice0]
    have hbB : b < (batchStep p (inputs.map (fun s => s.getD 0 [])) init).length := by
      rw [length_batchStep]
      simp [hlen ▸ hb, hbin, hb]
    have hbX : b < (inputs.map (fun s => s.getD 0 [])).length := by simpa using hbin
    have hrowval : (batchStep p (inputs.map (fun s => s.getD 0 [])) init).getD b [] =
        step p ((inputs.get ⟨b, hbin⟩).getD 0 []) (init.get ⟨b, hb⟩) := by
      rw [List.getD_eq_getElem _ _ hbB]
      have := batchStep_getElem p (inputs.map (fun s => s.getD 0 [])) init b hbX hb hbB
      simp only [List.get_eq_getElem, List.getElem_map] at this ⊢
      rw [this]
    have hseq : (inputs.get ⟨b, hbin⟩).length = seqLen inputs :=
      huni _ (inputs.get_mem b hbin)
    have h0seq : 0 < (inputs.get ⟨b, hbin⟩).length := hseq ▸ hT
    have hx0 : (inputs.get ⟨b, hbin⟩).getD 0 [] =
        (inputs.get ⟨b, hbin⟩).get ⟨0, h0seq⟩ := List.getD_eq_getElem _ _ h0seq
    have happly : c.applyOK p ((inputs.getD b []).getD 0 []) (init.getD b []) := by
      refine ⟨hdims, ?_, ?_⟩
      · rw [List.getD_eq_getElem _ _ hbin]
        have hmem : (inputs.get ⟨b, hbin⟩).get ⟨0, h0seq⟩ ∈ inputs.get ⟨b, hbin⟩ :=
          (inputs.get ⟨b, hbin⟩).get_mem 0 h0seq
        simp only [List.get_eq_getElem] at hx0 ⊢
        rw [hx0]
        exact hinp _ (inputs.get_mem b hbin) _ hmem
      · rw [List.getD_eq_getElem _ _ hb]
        exact hinit _ (init.get_mem b hb)
    rw [GRU.apply, if_pos happly, hrow, hfirst, hrowval]
    rw [List.getD_eq_getElem _ _ hbin, List.getD_eq_getElem _ _ hb]
    rfl
  · intro hT0
    have hts : timeSlices inputs = [] := by
      simp [timeSlices, hT0]
    simp [unrollRaw, hts, scanSteps, List.map_const']

/-- Witness for C1: a concrete 2-unit cell unrolled over a batch of 2 sequences
of time length 2. -/
theorem unroll_rnn_states_witness :
    ∃ out, unroll_rnn ([[0, 0], [0, 0]] : Mat)
        ([[[1], [1]], [[1], [1]]] : List (List Vec))
        (fun X H => batchStep ⟨[[1, 0], [0, 1]], [[1], [2]], [0, 0]⟩ X H) = .ok out ∧
      out.length = ([[0, 0], [0, 0]] : Mat).length ∧
      (∀ row ∈ out, row.length = seqLen ([[[1], [1]], [[1], [1]]] : List (List Vec))) ∧
      (∀ b, b < ([[0, 0], [0, 0]] : Mat).length →
        0 < seqLen ([[[1], [1]], [[1], [1]]] : List (List Vec)) →
        (GRU.mk 2).apply ⟨[[1, 0], [0, 1]], [[1], [2]], [0, 0]⟩
          ((([[[1], [1]], [[1], [1]]] : List (List Vec)).getD b []).getD 0 [])
          (([[0, 0], [0, 0]] : Mat).getD b []) = .ok ((out.getD b []).getD 0 [])) ∧
      (seqLen ([[[1], [1]], [[1], [1]]] : List (List Vec)) = 0 →
        out = List.replicate ([[0, 0], [0, 0]] : Mat).length []) :=
  unroll_rnn_states ⟨2⟩ ⟨[[1, 0], [0, 1]], [[1], [2]], [0, 0]⟩
    [[0, 0], [0, 0]] [[[1], [1]], [[1], [1]]]
    (by decide) (by decide) (by decide) (by decide) (by decide)

theorem timeSlices_mem_length (inputs : List (List Vec)) :
    ∀ X ∈ timeSlices inputs, X.length = inputs.length := by
  intro X hX
  obtain ⟨t, _, rfl⟩ := List.mem_map.mp hX
  simp

/-- C10: the batch-major layout convention — `get_initial_state` produces states
of shape `[batch, units]`, and `unroll_rnn` consumes inputs `[batch, time,
input_dim]` together with those states and returns states `[batch, time, units]`,
for every batch size, sequence length and cell width. -/
theorem unroll_rnn_layout (c : GRU) (p : Params) (inputs : List (List Vec)) (k : Nat)
    (hdims : p.dimsOK c.numUnits p.inDim)
    (hk : k = inputs.length)
    (huni : ∀ s ∈ inputs, s.length = seqLen inputs)
    (_hinp : ∀ s ∈ inputs, ∀ v ∈ s, v.length = p.inDim) :
    (c.get_initial_state p k).length = k ∧
    (∀ r ∈ c.get_initial_state p k, r.length = c.numUnits) ∧
    ∃ out, unroll_rnn (c.get_initial_state p k) inputs (fun X H => batchStep p X H) =
        .ok out ∧
      out.length = k ∧
      (∀ row ∈ out, row.length = seqLen inputs) ∧
      (∀ row ∈ out, ∀ st ∈ row, st.length = c.numUnits) := by
  have hinitlen : (c.get_initial_state p k).length = k := by
    simp [GRU.get_initial_state]
  have hinitrows : ∀ r ∈ c.get_initial_state p k, r.length = c.numUnits := by
    intro r hr
    rw [(List.eq_of_mem_replicate hr : r = List.replicate c.numUnits 0)]
    simp
  have hok : unrollOK (c.get_initial_state p k) inputs := ⟨hinitlen.trans hk, huni⟩
  refine ⟨hinitlen, hinitrows,
    unrollRaw (c.get_initial_state p k) inputs (fun X H => batchStep p X H),
    by rw [unroll_rnn, if_pos hok], (length_unrollRaw _ _ _).trans hinitlen, ?_, ?_⟩
  · intro row hrow
    obtain ⟨b, hb, hrow⟩ := List.mem_iff_getElem.mp hrow
    rw [← hrow, unrollRaw_getElem]
    simp [length_scanSteps, length_timeSlices]
  · intro row hrow st hst
    obtain ⟨b, hb, hrow⟩ := List.mem_iff_getElem.mp hrow
    rw [← hrow, unrollRaw_getElem] at hst
    obtain ⟨S, hS, hst⟩ := List.mem_map.mp hst
    have hshape := scanSteps_shape p c.numUnits p.inDim k hdims (timeSlices inputs)
      (c.get_initial_state p k) hinitlen
      (fun X hX => (timeSlices_mem_length inputs X hX).trans hk.symm) S hS
    have hbk : b < k := by
      rw [length_unrollRaw, hinitlen] at hb
      exact hb
    have hbS : b < S.length := hshape.1 ▸ hbk
    rw [← hst, List.getD_eq_getElem _ _ hbS]
    exact hshape.2 _ (S.get_mem b hbS)

/-- Witness for C10: the same concrete cell, with initial states built by
`get_initial_state` for a batch of 2 and unrolled over 2 timesteps. -/
theorem unroll_rnn_layout_witness :
    ((GRU.mk 2).get_initial_state ⟨[[1, 0], [0, 1]], [[1], [2]], [0, 0]⟩ 2).length = 2 ∧
    (∀ r ∈ (GRU.mk 2).get_initial_state ⟨[[1, 0], [0, 1]], [[1], [2]], [0, 0]⟩ 2,
      r.length = (GRU.mk 2).numUnits) ∧
    ∃ out, unroll_rnn
        ((GRU.mk 2).get_initial_state ⟨[[1, 0], [0, 1]], [[1], [2]], [0, 0]⟩ 2)
        ([[[1], [1]], [[1], [1]]] : List (List Vec))
        (fun X H => batchStep ⟨[[1, 0], [0, 1]], [[1], [2]], [0, 0]⟩ X H) = .ok out ∧
      out.length = 2 ∧
      (∀ row ∈ out, row.length = seqLen ([[[1], [1]], [[1], [1]]] : List (List Vec))) ∧
      (∀ row ∈ out, ∀ st ∈ row, st.length = (GRU.mk 2).numUnits) :=
  unroll_rnn_layout ⟨2⟩ ⟨[[1, 0], [0, 1]], [[1], [2]], [0, 0]⟩
    [[[1], [1]], [[1], [1]]] 2 (by decide) (by decide) (by decide) (by decide)

theorem dot_addVec (a b c : Vec) (hbc : b.length = c.length) :
    dot a (addVec b c) = dot a b + dot a c := by
  induction a generalizing b c with
  | nil => simp [dot]
  | cons q qs ih =>
    cases b with
    | nil =>
      cases c with
      | nil => simp [dot, addVec]
      | cons => simp at hbc
    | cons r rs =>
      cases c with
      | nil => simp at hbc
      | cons t ts =>
        simp only [List.length_cons, Nat.succ_inj] at hbc
        simp only [dot, addVec, List.zipWith_cons_cons, List.sum_cons] at *
        rw [ih rs ts hbc]
        ring

theorem dot_scale (t : ℚ) (a v : Vec) :
    dot (a.map (fun w => t * w)) v = t * dot a v := by
  induction a generalizing v with
  | nil => simp [dot]
  | cons q qs ih =>
    cases v with
    | nil => simp [dot]
    | cons r rs =>
      simp only [dot, List.map_cons, List.zipWith_cons_cons, List.sum_cons] at *
      rw [ih rs]
      ring

theorem linf_nonneg (v : Vec) : 0 ≤ linf v := by
  induction v with
  | nil => simp [linf]
  | cons q qs ih =>
    simp only [linf, List.map_cons, List.foldr_cons] at *
    exact le_trans ih (le_max_right _ _)

theorem sumAbs_nonneg (v : Vec) : 0 ≤ sumAbs v := by
  induction v with
  | nil => simp [sumAbs]
  | cons q qs ih =>
    simp only [sumAbs, List.map_cons, List.sum_cons] at *
    have := abs_nonneg q
    linarith

theorem abs_le_linf (v : Vec) (q : ℚ) (hq : q ∈ v) : |q| ≤ linf v := by
  induction v with
  | nil => cases hq
  | cons r rs ih =>
    rcases List.mem_cons.mp hq with h | h
    · subst h
      exact le_max_left _ _
    · exact le_trans (ih h) (le_max_right _ _)

theorem linf_le_of_forall (v : Vec) (B : ℚ) (hB : 0 ≤ B)
    (h : ∀ q ∈ v, |q| ≤ B) : linf v ≤ B := by
  induction v with
  | nil => simpa [linf] using hB
  | cons q qs ih =>
    simp only [linf, List.map_cons, List.foldr_cons]
    exact max_le (h q (by simp)) (ih fun r hr => h r (by simp [hr]))

theorem abs_dot_le (a v : Vec) : |dot a v| ≤ sumAbs a * linf v := by
  induction a generalizing v with
  | nil => simp [dot, sumAbs]
  | cons q qs ih =>
    cases v with
    | nil =>
      simp only [dot, List.zipWith_nil_right, List.sum_nil, abs_zero, linf,
        List.map_nil, List.foldr_nil, mul_zero, le_refl]
    | cons r rs =>
      simp only [dot, List.zipWith_cons_cons, List.sum_cons, sumAbs,
        List.map_cons] at *
      have h1 : |q * r + (List.zipWith (· * ·) qs rs).sum| ≤
          |q * r| + |dot qs rs| := by
        simpa [dot] using abs_add (q * r) (List.zipWith (· * ·) qs rs).sum
      have h2 : |dot qs rs| ≤ sumAbs qs * linf rs := ih rs
      have h3 : |q * r| = |q| * |r| := abs_mul q r
      have h4 : |r| ≤ linf (r :: rs) := abs_le_linf _ r (by simp)
      have h5 : linf rs ≤ linf (r :: rs) := by
        simp only [linf, List.map_cons, List.foldr_cons]
        exact le_max_right _ _
      have h6 : sumAbs qs * linf rs ≤ sumAbs qs * linf (r :: rs) :=
        mul_le_mul_of_nonneg_left h5 (sumAbs_nonneg qs)
      have h7 : |q| * |r| ≤ |q| * linf (r :: rs) :=
        mul_le_mul_of_nonneg_left h4 (abs_nonneg q)
      calc |q * r + (List.zipWith (· * ·) qs rs).sum| ≤ |q * r| + |dot qs rs| := h1
        _ ≤ |q| * linf (r :: rs) + sumAbs qs * linf (r :: rs) := by
            rw [h3] at *; linarith
        _ = (|q| + sumAbs qs) * linf (r :: rs) := by ring
        _ = sumAbs (q :: qs) * linf (r :: rs) := by
            simp [sumAbs]

theorem maxRowSum_nonneg (m : Mat) : 0 ≤ maxRowSum m := by
  induction m with
  | nil => simp [maxRowSum]
  | cons r rs ih =>
    simp only [maxRowSum, List.map_cons, List.foldr_cons] at *
    exact le_trans ih (le_max_right _ _)

theorem sumAbs_le_maxRowSum (m : Mat) (r : Vec) (hr : r ∈ m) :
    sumAbs r ≤ maxRowSum m := by
  induction m with
  | nil => cases hr
  | cons s ss ih =>
    rcases List.mem_cons.mp hr with h | h
    · subst h
      exact le_max_left _ _
    · exact le_trans (ih h) (le_max_right _ _)

theorem length_taylorErr (p : Params) (x h dx dh : Vec) :
    (taylorErr p x h dx dh).length =
      min (min p.wh.length p.wx.length) p.b.length := by
  simp only [taylorErr, subVec, linApprox, addVec, step, preact, matVec,
    recJacRaw, inpJacRaw, List.length_zipWith, List.length_map]
  omega

theorem taylorErr_getElem (p : Params) (x h dx dh : Vec)
    (hx : dx.length = x.length) (hh : dh.length = h.length)
    (i : Nat) (hi : i < (taylorErr p x h dx dh).length)
    (hiW : i < p.wh.length) (hiV : i < p.wx.length) :
    (taylorErr p x h dx dh)[i] = (dot p.wh[i] dh + dot p.wx[i] dx) ^ 2 := by
  simp only [taylorErr, subVec, linApprox, addVec, step, preact, matVec,
    recJacRaw, inpJacRaw, List.getElem_zipWith, List.getElem_map]
  have e1 : List.zipWith (fun u v => u + v) h dh = addVec h dh := rfl
  have e2 : List.zipWith (fun u v => u + v) x dx = addVec x dx := rfl
  simp only [e1, e2, dot_addVec p.wh[i] h dh hh.symm,
    dot_addVec p.wx[i] x dx hx.symm, dot_scale]
  simp only [sigma, sigmaDeriv]
  ring

/-- C3: at every expansion point `(params, x, h)` there is a constant `C ≥ 0`,
independent of the perturbation, with
`‖step(x+Δx, h+Δh) − (step(x,h) + rec_jac·Δh + inp_jac·Δx)‖∞ ≤ C·(‖Δh‖∞+‖Δx‖∞)²`
— the first-order approximation built from the exact Jacobians has second-order
error, hence shrinks faster than linearly as `‖Δh‖, ‖Δx‖ → 0`. -/
theorem taylor_second_order (p : Params) (x h : Vec) :
    ∃ C, 0 ≤ C ∧ ∀ dx dh : Vec, dx.length = x.length → dh.length = h.length →
      linf (taylorErr p x h dx dh) ≤ C * (linf dh + linf dx) ^ 2 := by
  refine ⟨(maxRowSum p.wh + maxRowSum p.wx) ^ 2, by positivity, ?_⟩
  intro dx dh hx hh
  have hC : (0 : ℚ) ≤ maxRowSum p.wh + maxRowSum p.wx := by
    have h1 := maxRowSum_nonneg p.wh
    have h2 := maxRowSum_nonneg p.wx
    linarith
  have hD : (0 : ℚ) ≤ linf dh + linf dx := by
    have h1 := linf_nonneg dh
    have h2 := linf_nonneg dx
    linarith
  apply linf_le_of_forall _ _ (by positivity)
  intro q hq
  obtain ⟨i, hi, rfl⟩ := List.mem_iff_getElem.mp hq
  have hlen := length_taylorErr p x h dx dh
  have hiW : i < p.wh.length := by rw [hlen] at hi; omega
  have hiV : i < p.wx.length := by rw [hlen] at hi; omega
  rw [taylorErr_getElem p x h dx dh hx hh i hi hiW hiV]
  have hmemW : p.wh[i] ∈ p.wh := p.wh.get_mem i hiW
  have hmemV : p.wx[i] ∈ p.wx := p.wx.get_mem i hiV
  have hA : |dot p.wh[i] dh| ≤ maxRowSum p.wh * linf dh :=
    le_trans (abs_dot_le _ _)
      (mul_le_mul_of_nonneg_right (sumAbs_le_maxRowSum _ _ hmemW) (linf_nonneg dh))
  have hB : |dot p.wx[i] dx| ≤ maxRowSum p.wx * linf dx :=
    le_trans (abs_dot_le _ _)
      (mul_le_mul_of_nonneg_right (sumAbs_le_maxRowSum _ _ hmemV) (linf_nonneg dx))
  have hAB : |dot p.wh[i] dh + dot p.wx[i] dx| ≤
      (maxRowSum p.wh + maxRowSum p.wx) * (linf dh + linf dx) := by
    have htri := abs_add (dot p.wh[i] dh) (dot p.wx[i] dx)
    nlinarith [maxRowSum_nonneg p.wh, maxRowSum_nonneg p.wx,
      linf_nonneg dh, linf_nonneg dx]
  calc |(dot p.wh[i] dh + dot p.wx[i] dx) ^ 2|
      = |dot p.wh[i] dh + dot p.wx[i] dx| ^ 2 := abs_pow _ 2
    _ ≤ ((maxRowSum p.wh + maxRowSum p.wx) * (linf dh + linf dx)) ^ 2 :=
        pow_le_pow_left₀ (abs_nonneg _) hAB 2
    _ = (maxRowSum p.wh + maxRowSum p.wx) ^ 2 * (linf dh + linf dx) ^ 2 := by ring

/-- Witness for C3: the second-order error bound instantiated at a concrete
expansion point of a concrete 2-unit cell. -/
theorem taylor_second_order_witness :
    ∃ C, 0 ≤ C ∧ ∀ dx dh : Vec,
      dx.length = ([1] : Vec).length → dh.length = ([1, 2] : Vec).length →
      linf (taylorErr ⟨[[1, 0], [0, 1]], [[1], [2]], [0, 0]⟩ [1] [1, 2] dx dh) ≤
        C * (linf dh + linf dx) ^ 2 :=
  taylor_second_order ⟨[[1, 0], [0, 1]], [[1], [2]], [0, 0]⟩ [1] [1, 2]

/-- C4: for a cell with `n` units and matching-shape arguments of input
dimension `d`, `rec_jac` returns an `n × n` array and `inp_jac` an `n × d`
array. -/
theorem jac_shapes (c : GRU) (p : Params) (x h : Vec) (hok : c.applyOK p x h) :
    ∃ J K, c.rec_jac p x h = .ok J ∧ c.inp_jac p x h = .ok K ∧
      J.length = c.numUnits ∧ (∀ r ∈ J, r.length = c.numUnits) ∧
      K.length = c.numUnits ∧ (∀ r ∈ K, r.length = p.inDim) := by
  obtain ⟨⟨hW, hWr, hV, hVr, hb⟩, hxl, hhl⟩ := hok
  have hpre : (preact p x h).length = c.numUnits := by
    simp [preact, addVec, matVec, hW, hV, hb]
  refine ⟨recJacRaw p x h, inpJacRaw p x h, ?_, ?_, ?_, ?_, ?_, ?_⟩
  · rw [GRU.rec_jac, if_pos ⟨⟨hW, hWr, hV, hVr, hb⟩, hxl, hhl⟩]
  · rw [GRU.inp_jac, if_pos ⟨⟨hW, hWr, hV, hVr, hb⟩, hxl, hhl⟩]
  · simp [recJacRaw, hpre, hW]
  · intro r hr
    obtain ⟨i, hi, hr⟩ := List.mem_iff_getElem.mp hr
    have hiW : i < p.wh.length := by
      simp only [recJacRaw, List.length_zipWith] at hi
      omega
    rw [← hr]
    simp only [recJacRaw, List.getElem_zipWith, List.length_map]
    exact hWr _ (p.wh.get_mem i hiW)
  · simp [inpJacRaw, hpre, hV]
  · intro r hr
    obtain ⟨i, hi, hr⟩ := List.mem_iff_getElem.mp hr
    have hiV : i < p.wx.length := by
      simp only [inpJacRaw, List.length_zipWith] at hi
      omega
    rw [← hr]
    simp only [inpJacRaw, List.getElem_zipWith, List.length_map]
    exact hVr _ (p.wx.get_mem i hiV)

/-- Witness for C4: Jacobian shapes at a concrete 2-unit cell with input
dimension 1 — a (2, 2) recurrent Jacobian and a (2, 1) input Jacobian. -/
theorem jac_shapes_witness :
    ∃ J K, (GRU.mk 2).rec_jac ⟨[[1, 0], [0, 1]], [[1], [2]], [0, 0]⟩ [1] [1, 2] =
        .ok J ∧
      (GRU.mk 2).inp_jac ⟨[[1, 0], [0, 1]], [[1], [2]], [0, 0]⟩ [1] [1, 2] = .ok K ∧
      J.length = (GRU.mk 2).numUnits ∧
      (∀ r ∈ J, r.length = (GRU.mk 2).numUnits) ∧
      K.length = (GRU.mk 2).numUnits ∧
      (∀ r ∈ K, r.length = Params.inDim ⟨[[1, 0], [0, 1]], [[1], [2]], [0, 0]⟩) :=
  jac_shapes ⟨2⟩ ⟨[[1, 0], [0, 1]], [[1], [2]], [0, 0]⟩ [1] [1, 2] (by decide)

end Renn
